import Mathlib

/-!
Verification of a small linked-list library consisting of two variants:
an exclusively-owned mutable stack list (`first.rs`) and a
reference-counted persistent list with structural sharing (`third.rs`).

The owned variant is embedded directly: `Option<Box<Node<T>>>` is a purely
tree-shaped owning pointer, so the chain is a nested inductive type and the
mutating methods become state-passing functions.

The persistent variant needs observable sharing and reference counts, so it
is embedded against an explicit heap: a store mapping addresses (`Nat`) to
node records that carry the `Rc` strong count, with each method threading
the store.
-/

/-- Sequences of elements (used for specifications and collected traversals);
an alias for the core list type, which is shadowed inside the namespaces
that model the two `List` structs of the source. -/
abbrev Elems (α : Type) : Type := List α

namespace First

/-- `struct Node<T> { elem: T, next: Link<T> }` with
`type Link<T> = Option<Box<Node<T>>>`: a `Box` is uniquely owning, so the
chain is a nested inductive value. -/
inductive Node (α : Type) : Type where
  | mk (elem : α) (next : Option (Node α)) : Node α

/-- `type Link<T> = Option<Box<Node<T>>>`. -/
abbrev Link (α : Type) : Type := Option (Node α)

/-- Field accessor for `Node.elem`. -/
def Node.elem : Node α → α
  | .mk e _ => e

/-- Field accessor for `Node.next`. -/
def Node.next : Node α → Link α
  | .mk _ n => n

/-- `pub struct List<T> { head: Link<T> }`. -/
structure List (α : Type) : Type where
  head : Link α

/-- `List::new`: `List { head: None }`. -/
def List.new : List α :=
  ⟨none⟩

/-- `List::push`: allocates `Node { elem, next: self.head.take() }` and
stores it as the new head.  Mutation of `&mut self` is modelled by
returning the updated list. -/
def List.push (self : List α) (elem : α) : List α :=
  ⟨some (Node.mk elem self.head)⟩

/-- `List::pop`: `self.head.take().map(|node| { self.head = node.next; node.elem })`.
Returns the popped value together with the updated list. -/
def List.pop (self : List α) : Option α × List α :=
  match self.head with
  | none => (none, ⟨none⟩)
  | some node => (some node.elem, ⟨node.next⟩)

/-- `List::peek`: `self.head.as_ref().map(|node| &node.elem)`; the returned
`&T` is modelled as the value it points at. -/
def List.peek (self : List α) : Option α :=
  self.head.map Node.elem

/-- `List::peek_mut`: `self.head.as_mut().map(|node| &mut node.elem)`; like
`peek`, the `&mut T` is modelled as the value it points at. -/
def List.peek_mut (self : List α) : Option α :=
  self.head.map Node.elem

/-- An assignment `*r = v` performed through the `&mut T` returned by
`peek_mut`: it overwrites the front element in place and touches nothing
else (on an empty list `peek_mut` returns `None`, so no write happens). -/
def List.write_front (self : List α) (v : α) : List α :=
  match self.head with
  | none => ⟨none⟩
  | some node => ⟨some (Node.mk v node.next)⟩

/-- Number of nodes in a chain. -/
def chainLen : Link α → Nat
  | none => 0
  | some (Node.mk _ next) => chainLen next + 1

/-- The sequence obtained by calling `pop` repeatedly until it returns
`None` (front-to-back contents of the list). -/
def List.popAll : List α → Elems α
  | ⟨none⟩ => []
  | ⟨some (Node.mk e next)⟩ => e :: List.popAll ⟨next⟩

/-- `xs.foldl push`: performs the sequence of `push` calls given by `xs`,
first element first. -/
def List.pushAll (self : List α) (xs : Elems α) : List α :=
  xs.foldl List.push self

/-- `pub struct IntoIter<T>(List<T>);` -/
structure IntoIter (α : Type) : Type where
  list : List α

/-- `List::into_iter`: `IntoIter(self)`. -/
def List.into_iter (self : List α) : IntoIter α :=
  ⟨self⟩

/-- `Iterator for IntoIter`: `fn next(&mut self) { self.0.pop() }`. -/
def IntoIter.next (self : IntoIter α) : Option α × IntoIter α :=
  match self.list.pop with
  | (r, l) => (r, ⟨l⟩)

/-- Collects at most `fuel` elements from an `IntoIter` by repeated `next`. -/
def IntoIter.collect (fuel : Nat) (it : IntoIter α) : Elems α :=
  match fuel with
  | 0 => []
  | fuel + 1 =>
    match it.next with
    | (none, _) => []
    | (some x, it') => x :: IntoIter.collect fuel it'

/-- `pub struct Iter<'a, T> { next: Option<&'a Node<T>> }`: the shared
borrow is modelled as the chain value itself. -/
structure Iter (α : Type) : Type where
  next : Link α

/-- `List::iter`: `Iter { next: self.head.as_deref() }`. -/
def List.iter (self : List α) : Iter α :=
  ⟨self.head⟩

/-- `Iterator for Iter`: `self.next.map(|node| { self.next = node.next.as_deref(); &node.elem })`. -/
def Iter.step (self : Iter α) : Option α × Iter α :=
  match self.next with
  | none => (none, ⟨none⟩)
  | some node => (some node.elem, ⟨node.next⟩)

/-- The full sequence of elements yielded by an `Iter` cursor. -/
def Iter.collect : Iter α → Elems α
  | ⟨none⟩ => []
  | ⟨some (Node.mk e next)⟩ => e :: Iter.collect ⟨next⟩

/-- `pub struct IterMut<'a, T> { next: Option<&'a mut Node<T>> }`: the
exclusive borrow is likewise modelled as the chain value. -/
structure IterMut (α : Type) : Type where
  next : Link α

/-- `List::iter_mut`: `IterMut { next: self.head.as_deref_mut() }`. -/
def List.iter_mut (self : List α) : IterMut α :=
  ⟨self.head⟩

/-- `Iterator for IterMut`:
`self.next.take().map(|node| { self.next = node.next.as_deref_mut(); &mut node.elem })`. -/
def IterMut.step (self : IterMut α) : Option α × IterMut α :=
  match self.next with
  | none => (none, ⟨none⟩)
  | some node => (some node.elem, ⟨node.next⟩)

/-- The full sequence of elements yielded by an `IterMut` cursor. -/
def IterMut.collect : IterMut α → Elems α
  | ⟨none⟩ => []
  | ⟨some (Node.mk e next)⟩ => e :: IterMut.collect ⟨next⟩

/-- One iteration of the `Drop for List` loop
`while let Some(mut boxed_node) = cur_link { cur_link = boxed_node.next.take(); }`:
the successor link is detached into the loop variable before the current
box is freed, so freeing a node never recurses into the next one. -/
def dropStep : Link α → Link α
  | none => none
  | some boxed_node => boxed_node.next

end First

namespace Third

/-- `struct Node<T> { elem: T, next: Link<T> }` with
`type Link<T> = Option<Rc<Node<T>>>`.  An `Rc<Node<T>>` is a shared heap
allocation, modelled as an address (`Nat`) into an explicit store; the
record holds the node's two fields together with the allocation's `Rc`
strong reference count. -/
structure Node (α : Type) : Type where
  elem : α
  next : Option Nat
  rc : Nat
  deriving Repr, DecidableEq

/-- The heap of `Rc<Node>` allocations: an association list from addresses
to node records (addresses are unique in every state the operations
construct). -/
abbrev Store (α : Type) : Type := List (Nat × Node α)

/-- Looks up the allocation at address `a` (dereferencing an `Rc`). -/
def Store.find : Store α → Nat → Option (Node α)
  | [], _ => none
  | (k, nd) :: σ, a => if a = k then some nd else Store.find σ a

/-- The element and successor fields visible at address `a`, ignoring the
reference count: exactly what traversal and `head` can observe. -/
def Store.findEN (σ : Store α) (a : Nat) : Option (α × Option Nat) :=
  (Store.find σ a).map (fun nd => (nd.elem, nd.next))

/-- `Rc::clone` on the allocation at `a`: bumps its strong count by one. -/
def incRc : Store α → Nat → Store α
  | [], _ => []
  | (k, nd) :: σ, a =>
    if k = a then (k, { nd with rc := nd.rc + 1 }) :: σ
    else (k, nd) :: incRc σ a

/-- Dropping one `Rc` handle on the allocation at `a` when other handles
remain: decrements its strong count by one. -/
def decRc : Store α → Nat → Store α
  | [], _ => []
  | (k, nd) :: σ, a =>
    if k = a then (k, { nd with rc := nd.rc - 1 }) :: σ
    else (k, nd) :: decRc σ a

/-- Deallocation of the node at `a` (what `Rc::try_unwrap`'s `Ok` case does
to the allocation after moving the inner `Node` out). -/
def eraseAddr : Store α → Nat → Store α
  | [], _ => []
  | (k, nd) :: σ, a => if k = a then σ else (k, nd) :: eraseAddr σ a

/-- `link.clone()` on a `Link<T>`: cloning `Some(rc)` bumps the count of
the allocation it points to; cloning `None` does nothing. -/
def cloneLink (σ : Store α) : Option Nat → Store α
  | none => σ
  | some a => incRc σ a

/-- `pub struct List<T> { head: Link<T> }`. -/
structure List (α : Type) : Type where
  head : Option Nat
  deriving Repr, DecidableEq

/-- `List::new`: `List { head: None }`. -/
def List.new : List α :=
  ⟨none⟩

/-- `List::head`: `self.head.as_ref().map(|node| &node.elem)`; the `&T` is
modelled as the value it points at.  Takes the store to dereference the
shared pointer. -/
def headElem (σ : Store α) (self : List α) : Option α :=
  (self.head.bind (Store.find σ)).map Node.elem

/-- `List::prepend`: allocates `Rc::new(Node { elem, next: self.head.clone() })`
at the fresh address `fresh` (strong count 1) and returns the new list;
cloning `self.head` bumps the count of the original front node.  The
original list is untouched. -/
def prepend (σ : Store α) (self : List α) (elem : α) (fresh : Nat) :
    Store α × List α :=
  ((fresh, ⟨elem, self.head, 1⟩) :: cloneLink σ self.head, ⟨some fresh⟩)

/-- `List::tail`: `List { head: self.head.as_ref().and_then(|node| node.next.clone()) }`;
cloning the successor link bumps the count of the node it points to (when
there is one). -/
def tail (σ : Store α) (self : List α) : Store α × List α :=
  match self.head with
  | none => (σ, ⟨none⟩)
  | some a =>
    match Store.find σ a with
    | none => (σ, ⟨none⟩)
    | some nd => (cloneLink σ nd.next, ⟨nd.next⟩)

/-- The sequence of elements seen by `List::iter` (the `Iter` cursor holds
`Option<&Node<T>>` and repeatedly steps to `node.next`); `fuel` bounds the
number of steps so the walk is total even on an ill-formed store. -/
def traverse (σ : Store α) : Option Nat → Nat → Elems α
  | none, _ => []
  | some _, 0 => []
  | some a, fuel + 1 =>
    match Store.find σ a with
    | none => []
    | some nd => nd.elem :: traverse σ nd.next fuel

/-- The `Drop for List` loop:
`while let Some(node) = head { if let Ok(mut node) = Rc::try_unwrap(node) { head = node.next.take(); } else { break; } }`.
`Rc::try_unwrap` succeeds exactly when the strong count is 1, in which case
the allocation is freed and the walk continues with the detached successor
link; otherwise the `Err` handle is dropped (count decremented by one) and
the loop stops.  `fuel` bounds the iteration count; each iteration frees at
most one allocation. -/
def dropLoop (σ : Store α) : Option Nat → Nat → Store α
  | none, _ => σ
  | some _, 0 => σ
  | some a, fuel + 1 =>
    match Store.find σ a with
    | none => σ
    | some nd =>
      if nd.rc = 1 then dropLoop (eraseAddr σ a) nd.next fuel
      else decRc σ a

/-- The store fragment describing a uniquely-owned chain holding `xs`
front-to-back at consecutive addresses `base, base + 1, ...`: each node's
strong count is 1 (its only handle is its predecessor's `next`, or the
owning list's `head` for the front node). -/
def mkChain : Elems α → Nat → Store α
  | [], _ => []
  | x :: rest, base =>
    (base, ⟨x, if rest.isEmpty then none else some (base + 1), 1⟩) ::
      mkChain rest (base + 1)

/-- The head link of the chain built by `mkChain`. -/
def chainHead (xs : Elems α) (base : Nat) : Option Nat :=
  if xs.isEmpty then none else some base

end Third

namespace First

theorem popAll_none (α : Type) : List.popAll (⟨none⟩ : List α) = [] := by
  simp [List.popAll]

theorem popAll_some (α : Type) (e : α) (n : Link α) :
    List.popAll (⟨some (Node.mk e n)⟩ : List α) = e :: List.popAll ⟨n⟩ := by
  simp [List.popAll]

theorem popAll_push (α : Type) (l : List α) (x : α) :
    List.popAll (List.push l x) = x :: List.popAll l := by
  simpa [List.push] using popAll_some α x l.head

theorem pushAll_cons (α : Type) (l : List α) (x : α) (xs : Elems α) :
    List.pushAll l (x :: xs) = List.pushAll (List.push l x) xs := by
  simp [List.pushAll]

theorem popAll_pushAll (α : Type) (l : List α) (xs : Elems α) :
    List.popAll (List.pushAll l xs) = xs.reverse ++ List.popAll l := by
  induction xs generalizing l with
  | nil => simp [List.pushAll]
  | cons x xs ih =>
    rw [pushAll_cons, ih, popAll_push]
    simp

theorem iter_collect_eq_popAll (α : Type) (l : List α) :
    Iter.collect (List.iter l) = List.popAll l := by
  induction l using List.popAll.induct with
  | case1 => simp [List.iter, Iter.collect, List.popAll]
  | case2 e next ih =>
    simp only [List.iter] at ih ⊢
    rw [popAll_some]
    simp only [Iter.collect]
    exact congrArg (e :: ·) ih

theorem iterMut_collect_eq_popAll (α : Type) (l : List α) :
    IterMut.collect (List.iter_mut l) = List.popAll l := by
  induction l using List.popAll.induct with
  | case1 => simp [List.iter_mut, IterMut.collect, List.popAll]
  | case2 e next ih =>
    simp only [List.iter_mut] at ih ⊢
    rw [popAll_some]
    simp only [IterMut.collect]
    exact congrArg (e :: ·) ih

theorem chainLen_none (α : Type) : chainLen (none : Link α) = 0 := by
  simp [chainLen]

theorem chainLen_some (α : Type) (e : α) (n : Link α) :
    chainLen (some (Node.mk e n)) = chainLen n + 1 := by
  simp [chainLen]

theorem intoIter_collect_eq_popAll (α : Type) (l : List α) :
    IntoIter.collect (chainLen l.head) (List.into_iter l) = List.popAll l := by
  induction l using List.popAll.induct with
  | case1 =>
    rw [popAll_none, chainLen_none]
    rfl
  | case2 e next ih =>
    simp only [List.into_iter] at ih ⊢
    rw [popAll_some]
    have hlen : chainLen (⟨some (Node.mk e next)⟩ : List α).head = chainLen next + 1 :=
      chainLen_some α e next
    rw [hlen]
    simp only [IntoIter.collect, IntoIter.next, List.pop]
    exact congrArg (e :: ·) ih

end First

/-- Claim C1: for the owned stack list, for every sequence of push calls,
successive pop calls return the pushed elements in strict last-in-first-out
order (`popAll` after `pushAll xs` yields `xs.reverse` before the previous
contents), pop on an empty list returns no value, and the concrete scenario
push 1,2,3 / pop 3,2 / push 4,5 / pop 5,4,1 / pop none holds. -/
theorem first_push_pop_lifo :
    (∀ (α : Type) (l : First.List α) (xs : Elems α),
        First.List.popAll (First.List.pushAll l xs) =
          xs.reverse ++ First.List.popAll l) ∧
    (∀ (α : Type), (First.List.pop (First.List.new : First.List α)).1 = none) ∧
    (let l1 := First.List.pushAll (First.List.new : First.List Nat) [1, 2, 3]
     let r3 := First.List.pop l1
     let r2 := First.List.pop r3.2
     let l4 := First.List.pushAll r2.2 [4, 5]
     let r5 := First.List.pop l4
     let r4 := First.List.pop r5.2
     let r1 := First.List.pop r4.2
     let r0 := First.List.pop r1.2
     r3.1 = some 3 ∧ r2.1 = some 2 ∧ r5.1 = some 5 ∧ r4.1 = some 4 ∧
       r1.1 = some 1 ∧ r0.1 = none) :=
  ⟨First.popAll_pushAll, fun _ => rfl, rfl, rfl, rfl, rfl, rfl, rfl⟩

/-- Claim C9: for the owned stack list, push x then pop returns exactly
`some x` and restores precisely the pre-push list. -/
theorem first_push_pop_roundtrip :
    ∀ (α : Type) (l : First.List α) (x : α),
      First.List.pop (First.List.push l x) = (some x, l) :=
  fun _ _ _ => rfl

/-- Claim C5: over the same push sequence, `into_iter`, `iter` and
`iter_mut` visit elements in the identical LIFO order, and the `into_iter`
sequence equals the sequence obtained by popping until empty (`popAll`). -/
theorem first_iterators_agree :
    ∀ (α : Type) (xs : Elems α),
      let l := First.List.pushAll First.List.new xs
      First.IntoIter.collect (First.chainLen l.head) (First.List.into_iter l) =
          First.List.popAll l ∧
      First.Iter.collect (First.List.iter l) = First.List.popAll l ∧
      First.IterMut.collect (First.List.iter_mut l) = First.List.popAll l ∧
      First.List.popAll l = xs.reverse := by
  intro α xs
  refine ⟨First.intoIter_collect_eq_popAll α _, First.iter_collect_eq_popAll α _,
    First.iterMut_collect_eq_popAll α _, ?_⟩
  rw [First.popAll_pushAll]
  simpa using First.popAll_none α

/-- Claim C7: `peek` and `peek_mut` return no value on an empty list and
the front element otherwise, never changing the list's length or contents
(being borrows, they are modelled as pure observations; the in-place write
through the `peek_mut` reference preserves the length and every element but
the front), and a mutation written through the `peek_mut` reference is
returned by the subsequent pop, which otherwise behaves as before. -/
theorem first_peek_frame :
    ∀ (α : Type) (l : First.List α) (v : α),
      First.List.peek (First.List.new : First.List α) = none ∧
      First.List.peek_mut (First.List.new : First.List α) = none ∧
      First.List.peek l = (First.List.popAll l).head? ∧
      First.List.peek_mut l = First.List.peek l ∧
      First.chainLen (First.List.write_front l v).head = First.chainLen l.head ∧
      First.List.popAll (First.List.write_front l v) =
          (First.List.popAll l).modifyHead (fun _ => v) ∧
      (First.List.pop (First.List.write_front l v)).1 =
          (First.List.peek l).map (fun _ => v) ∧
      (First.List.pop (First.List.write_front l v)).2 = (First.List.pop l).2 := by
  intro α l v
  rcases l with ⟨_ | ⟨e, n⟩⟩
  · refine ⟨rfl, rfl, ?_, rfl, rfl, ?_, rfl, rfl⟩
    · rw [First.popAll_none]
      rfl
    · rw [show First.List.write_front (⟨none⟩ : First.List α) v = (⟨none⟩ : First.List α)
        from rfl, First.popAll_none]
      rfl
  · refine ⟨rfl, rfl, ?_, rfl, ?_, ?_, rfl, rfl⟩
    · rw [First.popAll_some]
      rfl
    · simp [First.List.write_front, First.chainLen, First.Node.next]
    · rw [show First.List.write_front ⟨some (First.Node.mk e n)⟩ v =
        (⟨some (First.Node.mk v n)⟩ : First.List α) from rfl,
        First.popAll_some, First.popAll_some]
      rfl

/-- Claim C8: every operation that can fail on an empty list returns no
value rather than an error (`pop`, `peek`, `peek_mut` on the owned list,
`head` on the persistent list), and each operation is atomic with respect
to the observable list state: in particular a pop that returns no value
leaves the list exactly as it was (and on the empty list leaves it
empty). -/
theorem empty_ops_none_atomic :
    (∀ (α : Type),
        First.List.pop (First.List.new : First.List α) = (none, First.List.new)) ∧
    (∀ (α : Type), First.List.peek (First.List.new : First.List α) = none) ∧
    (∀ (α : Type), First.List.peek_mut (First.List.new : First.List α) = none) ∧
    (∀ (α : Type) (σ : Third.Store α),
        Third.headElem σ (Third.List.new : Third.List α) = none) ∧
    (∀ (α : Type) (l : First.List α),
        (First.List.pop l).1 = none → (First.List.pop l).2 = l) := by
  refine ⟨fun _ => rfl, fun _ => rfl, fun _ => rfl, fun _ _ => rfl, ?_⟩
  intro α l h
  rcases l with ⟨_ | ⟨e, n⟩⟩
  · rfl
  · exact absurd h (by simp [First.List.pop])

/-- Witness for C8: the atomicity conjunct applied to the concrete empty
list, whose pop returns no value and leaves it unchanged. -/
theorem empty_ops_none_atomic_witness :
    (First.List.pop (First.List.new : First.List Nat)).2 = First.List.new :=
  empty_ops_none_atomic.2.2.2.2 Nat First.List.new rfl

namespace Third

theorem find_incRc (α : Type) (σ : Store α) (k a : Nat) :
    Store.find (incRc σ k) a =
      if a = k then (Store.find σ a).map (fun nd => { nd with rc := nd.rc + 1 })
      else Store.find σ a := by
  induction σ with
  | nil => simp [incRc, Store.find]
  | cons p σ ih =>
    obtain ⟨q, nd'⟩ := p
    by_cases hk : q = k
    · subst hk
      by_cases ha : a = q <;> simp [incRc, Store.find, ha]
    · by_cases ha : a = q
      · subst ha
        simp [incRc, Store.find, hk, Ne.symm hk]
      · simp [incRc, Store.find, hk, ha, ih]

theorem find_decRc (α : Type) (σ : Store α) (k a : Nat) :
    Store.find (decRc σ k) a =
      if a = k then (Store.find σ a).map (fun nd => { nd with rc := nd.rc - 1 })
      else Store.find σ a := by
  induction σ with
  | nil => simp [decRc, Store.find]
  | cons p σ ih =>
    obtain ⟨q, nd'⟩ := p
    by_cases hk : q = k
    · subst hk
      by_cases ha : a = q <;> simp [decRc, Store.find, ha]
    · by_cases ha : a = q
      · subst ha
        simp [decRc, Store.find, hk, Ne.symm hk]
      · simp [decRc, Store.find, hk, ha, ih]

theorem find_eraseAddr_ne (α : Type) (σ : Store α) (k a : Nat) (h : a ≠ k) :
    Store.find (eraseAddr σ k) a = Store.find σ a := by
  induction σ with
  | nil => rfl
  | cons p σ ih =>
    obtain ⟨q, nd'⟩ := p
    by_cases hk : q = k
    · subst hk
      simp [eraseAddr, Store.find, h]
    · by_cases ha : a = q <;> simp [eraseAddr, Store.find, hk, ha, ih]

theorem findEN_incRc (α : Type) (σ : Store α) (k a : Nat) :
    Store.findEN (incRc σ k) a = Store.findEN σ a := by
  simp only [Store.findEN, find_incRc]
  by_cases ha : a = k
  · simp only [ha, if_pos rfl]
    cases Store.find σ k <;> rfl
  · simp [ha]

theorem findEN_decRc (α : Type) (σ : Store α) (k a : Nat) :
    Store.findEN (decRc σ k) a = Store.findEN σ a := by
  simp only [Store.findEN, find_decRc]
  by_cases ha : a = k
  · simp only [ha, if_pos rfl]
    cases Store.find σ k <;> rfl
  · simp [ha]

theorem findEN_eraseAddr_ne (α : Type) (σ : Store α) (k a : Nat) (h : a ≠ k) :
    Store.findEN (eraseAddr σ k) a = Store.findEN σ a := by
  simp only [Store.findEN, find_eraseAddr_ne α σ k a h]

theorem findEN_cloneLink (α : Type) (σ : Store α) (link : Option Nat) (a : Nat) :
    Store.findEN (cloneLink σ link) a = Store.findEN σ a := by
  cases link with
  | none => rfl
  | some k => exact findEN_incRc α σ k a

theorem find_cloneLink_ne (α : Type) (σ : Store α) (link : Option Nat) (a : Nat)
    (h : link ≠ some a) : Store.find (cloneLink σ link) a = Store.find σ a := by
  cases link with
  | none => rfl
  | some k =>
    have hk : a ≠ k := fun hak => h (by rw [hak])
    simp [cloneLink, find_incRc, hk]

theorem find_mkChain_ge (α : Type) (xs : Elems α) (base a : Nat)
    (h : base + xs.length ≤ a) : Store.find (mkChain xs base) a = none := by
  induction xs generalizing base with
  | nil => rfl
  | cons x rest ih =>
    simp only [mkChain, Store.find]
    rw [if_neg (by simp at h; omega)]
    exact ih (base + 1) (by simp at h ⊢; omega)

theorem find_elem_of_findEN (α : Type) (σ σ' : Store α) (a : Nat)
    (h : Store.findEN σ' a = Store.findEN σ a) :
    (Store.find σ' a).map Node.elem = (Store.find σ a).map Node.elem := by
  rw [Store.findEN, Store.findEN] at h
  cases h1 : Store.find σ' a <;> cases h2 : Store.find σ a <;>
    rw [h1, h2] at h <;> simp_all

theorem headElem_congr (α : Type) (σ σ' : Store α) (l : List α)
    (h : ∀ a, l.head = some a → Store.findEN σ' a = Store.findEN σ a) :
    headElem σ' l = headElem σ l := by
  cases hl : l.head with
  | none => simp [headElem, hl]
  | some a =>
    simp only [headElem, hl, Option.some_bind]
    exact find_elem_of_findEN α σ σ' a (h a hl)

theorem traverse_chain (α : Type) (xs : Elems α) :
    ∀ (base fuel : Nat) (σ : Store α), xs.length ≤ fuel →
      (∀ i, i < xs.length →
        Store.findEN σ (base + i) = Store.findEN (mkChain xs base) (base + i)) →
      traverse σ (chainHead xs base) fuel = xs := by
  induction xs with
  | nil => intro base fuel σ _ _; simp [chainHead, traverse]
  | cons x rest ih =>
    intro base fuel σ hfuel hag
    obtain ⟨f, rfl⟩ : ∃ f, fuel = f + 1 := ⟨fuel - 1, by simp at hfuel; omega⟩
    have h0 := hag 0 (by simp)
    have hmk : Store.findEN (mkChain (x :: rest) base) (base + 0) =
        some (x, if rest.isEmpty then none else some (base + 1)) := by
      simp [mkChain, Store.findEN, Store.find]
    rw [hmk, Store.findEN, Option.map_eq_some'] at h0
    obtain ⟨nd, hfind, hEN⟩ := h0
    rw [Nat.add_zero] at hfind
    have helem : nd.elem = x := by
      have := congrArg Prod.fst hEN
      simpa using this
    have hnext : nd.next = if rest.isEmpty then none else some (base + 1) := by
      have := congrArg Prod.snd hEN
      simpa using this
    have hch : chainHead (x :: rest) base = some base := by
      simp [chainHead]
    rw [hch]
    rw [show traverse σ (some base) (f + 1) =
      (match Store.find σ base with
       | none => []
       | some nd => nd.elem :: traverse σ nd.next f) from rfl, hfind]
    cases rest with
    | nil =>
      have hnone : nd.next = none := by simpa using hnext
      show nd.elem :: traverse σ nd.next f = [x]
      rw [helem, hnone]
      simp [traverse]
    | cons y rest' =>
      have hsome : nd.next = some (base + 1) := by simpa using hnext
      show nd.elem :: traverse σ nd.next f = x :: y :: rest'
      rw [helem, hsome]
      have hih := ih (base + 1) f σ (by simp at hfuel ⊢; omega) ?_
      · rw [show chainHead (y :: rest') (base + 1) = some (base + 1) from by
          simp [chainHead]] at hih
        rw [hih]
      · intro i hi
        have harith : base + 1 + i = base + (i + 1) := by omega
        have h1 := hag (i + 1) (by simp at hi ⊢; omega)
        have h2 : Store.findEN (mkChain (x :: y :: rest') base) (base + (i + 1)) =
            Store.findEN (mkChain (y :: rest') (base + 1)) (base + (i + 1)) := by
          conv_lhs => rw [mkChain]
          simp only [Store.findEN, Store.find]
          rw [if_neg (by omega)]
        rw [harith, h1, h2]

end Third

namespace Third

theorem findEN_cons_ne (α : Type) (k : Nat) (nd : Node α) (σ : Store α) (a : Nat)
    (h : a ≠ k) : Store.findEN ((k, nd) :: σ) a = Store.findEN σ a := by
  simp [Store.findEN, Store.find, h]

theorem dropLoop_mkChain (α : Type) (xs : Elems α) :
    ∀ (base k : Nat),
      dropLoop (mkChain xs base) (chainHead xs base) k =
        mkChain (xs.drop k) (base + k) := by
  induction xs with
  | nil =>
    intro base k
    simp [chainHead, dropLoop, mkChain]
  | cons x rest ih =>
    intro base k
    have hch : chainHead (x :: rest) base = some base := by simp [chainHead]
    cases k with
    | zero => simp [hch, dropLoop]
    | succ k =>
      rw [hch]
      have hfind : Store.find (mkChain (x :: rest) base) base =
          some ⟨x, if rest.isEmpty then none else some (base + 1), 1⟩ := by
        simp [mkChain, Store.find]
      rw [show dropLoop (mkChain (x :: rest) base) (some base) (k + 1) =
        (match Store.find (mkChain (x :: rest) base) base with
         | none => mkChain (x :: rest) base
         | some nd =>
           if nd.rc = 1 then
             dropLoop (eraseAddr (mkChain (x :: rest) base) base) nd.next k
           else decRc (mkChain (x :: rest) base) base) from rfl, hfind]
      have herase : eraseAddr (mkChain (x :: rest) base) base =
          mkChain rest (base + 1) := by
        simp [mkChain, eraseAddr]
      show (if (1 : Nat) = 1 then
          dropLoop (eraseAddr (mkChain (x :: rest) base) base)
            (if rest.isEmpty then none else some (base + 1)) k
        else decRc (mkChain (x :: rest) base) base) = _
      rw [if_pos rfl, herase,
        show (if rest.isEmpty then none else some (base + 1)) =
          chainHead rest (base + 1) from rfl,
        ih (base + 1) k]
      have h1 : (x :: rest).drop (k + 1) = rest.drop k := rfl
      have h2 : base + 1 + k = base + (k + 1) := by omega
      rw [h1, h2]

theorem traverse_untouched (α : Type) (σ σ' : Store α) (fresh : Nat)
    (hEN : ∀ a, a ≠ fresh → Store.findEN σ' a = Store.findEN σ a)
    (hcl : ∀ b nd, Store.find σ b = some nd → nd.next ≠ some fresh) :
    ∀ (fuel : Nat) (link : Option Nat), link ≠ some fresh →
      traverse σ' link fuel = traverse σ link fuel := by
  intro fuel
  induction fuel with
  | zero => intro link _; cases link <;> rfl
  | succ f ih =>
    intro link hlink
    cases link with
    | none => rfl
    | some a =>
      have ha : a ≠ fresh := fun h => hlink (by rw [h])
      have hEq := hEN a ha
      rw [show traverse σ' (some a) (f + 1) = (match Store.find σ' a with
        | none => []
        | some nd => nd.elem :: traverse σ' nd.next f) from rfl]
      rw [show traverse σ (some a) (f + 1) = (match Store.find σ a with
        | none => []
        | some nd => nd.elem :: traverse σ nd.next f) from rfl]
      cases h2 : Store.find σ a with
      | none =>
        have h1 : Store.find σ' a = none := by
          rw [Store.findEN, Store.findEN, h2] at hEq
          simpa using hEq
        rw [h1]
      | some nd =>
        rw [Store.findEN, Store.findEN, h2, Option.map_some',
          Option.map_eq_some'] at hEq
        obtain ⟨nd', hnd', hENnd⟩ := hEq
        rw [hnd']
        have he : nd'.elem = nd.elem := by
          have := congrArg Prod.fst hENnd
          simpa using this
        have hn : nd'.next = nd.next := by
          have := congrArg Prod.snd hENnd
          simpa using this
        show nd'.elem :: traverse σ' nd'.next f = nd.elem :: traverse σ nd.next f
        rw [he, hn]
        exact congrArg _ (ih nd.next (hcl a nd h2))

end Third

namespace First

theorem chainLen_dropStep (α : Type) (l : Link α) :
    chainLen (dropStep l) = chainLen l - 1 := by
  cases l with
  | none => simp [dropStep, chainLen_none]
  | some nd =>
    cases nd with
    | mk e n =>
      show chainLen n = chainLen (some (Node.mk e n)) - 1
      rw [chainLen_some]
      omega

theorem chainLen_iterate_dropStep (α : Type) (l : Link α) (k : Nat) :
    chainLen (dropStep^[k] l) = chainLen l - k := by
  induction k generalizing l with
  | zero => simp
  | succ k ih =>
    rw [Function.iterate_succ_apply, ih (dropStep l), chainLen_dropStep]
    omega

theorem chainLen_zero_none (α : Type) (l : Link α) (h : chainLen l = 0) :
    l = none := by
  cases l with
  | none => rfl
  | some nd =>
    cases nd with
    | mk e n =>
      rw [chainLen_some] at h
      exact absurd h (Nat.succ_ne_zero _)

end First

/-- Claim C3: teardown of either list variant is an iterative walk from
head to tail whose entire state is one successor link, detached from each
node before that node is freed: the owned-list drop loop is the iteration
of `dropStep` on a single link, each iteration shortens the chain by
exactly one node, and after `chainLen` iterations the chain is gone; the
persistent-list drop loop on a uniquely-owned chain of any length frees
exactly one node per iteration and empties the whole store after
chain-length iterations.  No step's work depends on recursing into the
rest of the chain, so the auxiliary state is bounded independently of the
chain length. -/
theorem teardown_iterative_bounded :
    (∀ (α : Type) (l : First.Link α) (k : Nat),
        First.chainLen (First.dropStep^[k] l) = First.chainLen l - k) ∧
    (∀ (α : Type) (l : First.Link α),
        First.dropStep^[First.chainLen l] l = none) ∧
    (∀ (α : Type) (xs : Elems α) (k : Nat),
        Third.dropLoop (Third.mkChain xs 0) (Third.chainHead xs 0) k =
          Third.mkChain (xs.drop k) k) ∧
    (∀ (α : Type) (xs : Elems α),
        Third.dropLoop (Third.mkChain xs 0) (Third.chainHead xs 0) xs.length =
          []) := by
  have h3 : ∀ (α : Type) (xs : Elems α) (k : Nat),
      Third.dropLoop (Third.mkChain xs 0) (Third.chainHead xs 0) k =
        Third.mkChain (xs.drop k) k := by
    intro α xs k
    have := Third.dropLoop_mkChain α xs 0 k
    simpa using this
  refine ⟨First.chainLen_iterate_dropStep, ?_, h3, ?_⟩
  · intro α l
    apply First.chainLen_zero_none
    rw [First.chainLen_iterate_dropStep]
    omega
  · intro α xs
    rw [h3 α xs xs.length, List.drop_length]
    rfl

/-- Claim C4: for the persistent list, `prepend x` at a fresh address
returns a new list whose front node holds `x` and whose successor link is
the original list's head link itself (the whole original chain is shared,
not copied), every other allocation's observable fields are untouched, and
`head()` on the original list returns the same value after the derived
list is built as before. -/
theorem prepend_immutable (α : Type) (σ : Third.Store α) (l : Third.List α)
    (x : α) (fresh : Nat) (hne : l.head ≠ some fresh) :
    let p := Third.prepend σ l x fresh
    p.2.head = some fresh ∧
    Third.Store.findEN p.1 fresh = some (x, l.head) ∧
    (∀ a, a ≠ fresh → Third.Store.findEN p.1 a = Third.Store.findEN σ a) ∧
    Third.headElem p.1 l = Third.headElem σ l := by
  intro p
  have hframe : ∀ a, a ≠ fresh →
      Third.Store.findEN p.1 a = Third.Store.findEN σ a := by
    intro a ha
    show Third.Store.findEN
      ((fresh, ⟨x, l.head, 1⟩) :: Third.cloneLink σ l.head) a = _
    rw [Third.findEN_cons_ne α fresh ⟨x, l.head, 1⟩ _ a ha,
      Third.findEN_cloneLink]
  refine ⟨rfl, ?_, hframe, ?_⟩
  · show Third.Store.findEN
      ((fresh, ⟨x, l.head, 1⟩) :: Third.cloneLink σ l.head) fresh = _
    simp [Third.Store.findEN, Third.Store.find]
  · exact Third.headElem_congr α σ p.1 l
      (fun a hla => hframe a (fun haf => hne (by rw [hla, haf])))

/-- Witness for C4: prepending 5 at fresh address 1 onto the one-element
list at address 0 leaves the original list's `head()` unchanged. -/
theorem prepend_immutable_witness :
    Third.headElem
        (Third.prepend ([(0, ⟨7, none, 1⟩)] : Third.Store Nat) ⟨some 0⟩ 5 1).1
        ⟨some 0⟩ =
      Third.headElem ([(0, ⟨7, none, 1⟩)] : Third.Store Nat) ⟨some 0⟩ :=
  (prepend_immutable Nat [(0, ⟨7, none, 1⟩)] ⟨some 0⟩ 5 1 (by decide)).2.2.2

/-- Claim C6: for the persistent list, `tail()` on an empty list returns
another empty list (and leaves the store untouched) rather than an error;
`tail()` on a non-empty list returns a list whose head link is exactly the
successor link of the current front node (it shares the suffix chain); and
in the scenario prepend 3, prepend 2, prepend 1 the heads seen after
successive `tail()` calls are 1, 2, 3, no value, and a further `tail()` of
the empty result is again an empty list. -/
theorem tail_empty_and_suffix :
    (∀ (α : Type) (σ : Third.Store α),
        Third.tail σ (Third.List.new : Third.List α) = (σ, Third.List.new)) ∧
    (∀ (α : Type) (σ : Third.Store α) (l : Third.List α) (a : Nat)
        (nd : Third.Node α),
        l.head = some a → Third.Store.find σ a = some nd →
        (Third.tail σ l).2.head = nd.next) ∧
    (let p1 := Third.prepend [] (Third.List.new : Third.List Nat) 3 0
     let p2 := Third.prepend p1.1 p1.2 2 1
     let p3 := Third.prepend p2.1 p2.2 1 2
     let t1 := Third.tail p3.1 p3.2
     let t2 := Third.tail t1.1 t1.2
     let t3 := Third.tail t2.1 t2.2
     let t4 := Third.tail t3.1 t3.2
     Third.headElem p3.1 p3.2 = some 1 ∧
     Third.headElem t1.1 t1.2 = some 2 ∧
     Third.headElem t2.1 t2.2 = some 3 ∧
     Third.headElem t3.1 t3.2 = none ∧
     t4.2 = Third.List.new) := by
  refine ⟨fun α σ => rfl, ?_, ?_⟩
  · intro α σ l a nd hl hf
    simp [Third.tail, hl, hf]
  · exact ⟨by decide, by decide, by decide, by decide, by decide⟩

/-- Witness for C6: `tail` of the one-element list at address 0 has the
front node's successor link (none) as its head. -/
theorem tail_empty_and_suffix_witness :
    (Third.tail ([(0, ⟨7, none, 1⟩)] : Third.Store Nat) ⟨some 0⟩).2.head =
      none :=
  tail_empty_and_suffix.2.1 Nat [(0, ⟨7, none, 1⟩)] ⟨some 0⟩ 0 ⟨7, none, 1⟩
    rfl (by decide)

/-- Claim C10: for the persistent list, `l.prepend(x).tail()` returns a
list whose head link is the very same link as `l`'s head (the identical
shared chain), so its `head()` and its full traversal observe exactly what
`l`'s do.  `fresh` is the address of the node allocated by the prepend;
the hypotheses say that address is genuinely fresh: `l` does not point at
it and no node in the store points at it. -/
theorem prepend_tail_roundtrip (α : Type) (σ : Third.Store α)
    (l : Third.List α) (x : α) (fresh fuel : Nat)
    (hne : l.head ≠ some fresh)
    (hcl : ∀ b nd, Third.Store.find σ b = some nd → nd.next ≠ some fresh) :
    let p := Third.prepend σ l x fresh
    let t := Third.tail p.1 p.2
    t.2.head = l.head ∧
    Third.headElem t.1 t.2 = Third.headElem σ l ∧
    Third.traverse t.1 t.2.head fuel = Third.traverse σ l.head fuel := by
  intro p t
  have hp1 : p.1 = (fresh, ⟨x, l.head, 1⟩) :: Third.cloneLink σ l.head := rfl
  have hfind : Third.Store.find p.1 fresh = some ⟨x, l.head, 1⟩ := by
    rw [hp1]
    simp [Third.Store.find]
  have ht : t = (Third.cloneLink p.1 l.head, ⟨l.head⟩) := by
    show Third.tail p.1 ⟨some fresh⟩ = _
    rw [show Third.tail p.1 ⟨some fresh⟩ = (match Third.Store.find p.1 fresh with
      | none => (p.1, ⟨none⟩)
      | some nd => (Third.cloneLink p.1 nd.next, ⟨nd.next⟩)) from rfl, hfind]
  have hEN : ∀ a, a ≠ fresh →
      Third.Store.findEN (Third.cloneLink p.1 l.head) a =
        Third.Store.findEN σ a := by
    intro a ha
    rw [Third.findEN_cloneLink, hp1,
      Third.findEN_cons_ne α fresh ⟨x, l.head, 1⟩ _ a ha,
      Third.findEN_cloneLink]
  refine ⟨by rw [ht], ?_, ?_⟩
  · rw [ht]
    exact Third.headElem_congr α σ (Third.cloneLink p.1 l.head) l
      (fun a hla => hEN a (fun haf => hne (by rw [hla, haf])))
  · rw [ht]
    exact Third.traverse_untouched α σ (Third.cloneLink p.1 l.head) fresh hEN
      hcl fuel l.head hne

/-- Witness for C10: prepend 5 at fresh address 1 onto the one-node list at
address 0, then tail: the traversal of the result equals the traversal of
the original list. -/
theorem prepend_tail_roundtrip_witness :
    Third.traverse
        (Third.tail (Third.prepend ([(0, ⟨7, none, 1⟩)] : Third.Store Nat)
            ⟨some 0⟩ 5 1).1
          (Third.prepend ([(0, ⟨7, none, 1⟩)] : Third.Store Nat)
            ⟨some 0⟩ 5 1).2).1
        (Third.tail (Third.prepend ([(0, ⟨7, none, 1⟩)] : Third.Store Nat)
            ⟨some 0⟩ 5 1).1
          (Third.prepend ([(0, ⟨7, none, 1⟩)] : Third.Store Nat)
            ⟨some 0⟩ 5 1).2).2.head 2 =
      Third.traverse ([(0, ⟨7, none, 1⟩)] : Third.Store Nat) (some 0) 2 :=
  (prepend_tail_roundtrip Nat [(0, ⟨7, none, 1⟩)] ⟨some 0⟩ 5 1 2 (by decide)
    (by
      intro b nd h
      by_cases hb : b = 0
      · subst hb
        rw [show Third.Store.find ([(0, ⟨7, none, 1⟩)] : Third.Store Nat) 0 =
          some ⟨7, none, 1⟩ from by decide] at h
        cases h
        decide
      · rw [show Third.Store.find ([(0, ⟨7, none, 1⟩)] : Third.Store Nat) b =
          if b = 0 then some ⟨7, none, 1⟩ else none from by
            simp [Third.Store.find], if_neg hb] at h
        cases h)).2.2

namespace Third

theorem share_drop_cons (α : Type) (x : α) (xs' : Elems α) (b c : α) :
    let m := xs'.length
    let σ0 := mkChain (x :: xs') 0
    let σB := prepend σ0 ⟨some 0⟩ b (m + 1)
    let σC := prepend σB.1 ⟨some 0⟩ c (m + 2)
    let σ3 := dropLoop σC.1 (some (m + 1)) (m + 3)
    (Store.findEN σC.1 (m + 1) = some (b, some 0) ∧
     Store.findEN σC.1 (m + 2) = some (c, some 0)) ∧
    Store.find σ3 (m + 1) = none ∧
    (∀ i, i < m + 1 → Store.findEN σ3 i = Store.findEN σ0 i) ∧
    Store.findEN σ3 (m + 2) = some (c, some 0) ∧
    headElem σ3 ⟨some (m + 2)⟩ = some c ∧
    traverse σ3 (some (m + 2)) (m + 3) = c :: x :: xs' := by
  intro m σ0 σB σC σ3
  have hσC1 : σC.1 =
      (m + 2, ⟨c, some 0, 1⟩) :: (m + 1, ⟨b, some 0, 1⟩) ::
        (0, ⟨x, chainHead xs' 1, 3⟩) :: mkChain xs' 1 := rfl
  have hfindB : Store.find σC.1 (m + 1) = some ⟨b, some 0, 1⟩ := by
    rw [hσC1]
    simp [Store.find, show ¬(m + 1 = m + 2) from by omega]
  have hσ3 : σ3 =
      (m + 2, ⟨c, some 0, 1⟩) :: (0, ⟨x, chainHead xs' 1, 2⟩) ::
        mkChain xs' 1 := by
    show dropLoop σC.1 (some (m + 1)) (m + 3) = _
    rw [show dropLoop σC.1 (some (m + 1)) (m + 3) =
      (match Store.find σC.1 (m + 1) with
       | none => σC.1
       | some nd =>
         if nd.rc = 1 then dropLoop (eraseAddr σC.1 (m + 1)) nd.next (m + 2)
         else decRc σC.1 (m + 1)) from rfl, hfindB]
    rw [show eraseAddr σC.1 (m + 1) =
      (m + 2, ⟨c, some 0, 1⟩) :: (0, ⟨x, chainHead xs' 1, 3⟩) ::
        mkChain xs' 1 from by
      rw [hσC1]
      simp [eraseAddr, show ¬(m + 2 = m + 1) from by omega]]
    rfl
  have hag : ∀ i, i < m + 1 → Store.findEN σ3 i = Store.findEN σ0 i := by
    intro i hi
    rw [hσ3, show σ0 = (0, ⟨x, chainHead xs' 1, 1⟩) :: mkChain xs' 1 from rfl]
    by_cases hi0 : i = 0
    · subst hi0
      simp [Store.findEN, Store.find, show ¬((0 : Nat) = m + 2) from by omega]
    · simp [Store.findEN, Store.find, hi0, show ¬(i = m + 2) from by omega]
  refine ⟨⟨?_, ?_⟩, ?_, hag, ?_, ?_, ?_⟩
  · simp [Store.findEN, hfindB]
  · rw [hσC1]
    simp [Store.findEN, Store.find]
  · rw [hσ3]
    simp [Store.find, show ¬(m + 1 = m + 2) from by omega,
      show ¬(m + 1 = 0) from by omega,
      Third.find_mkChain_ge α xs' 1 (m + 1) (by omega)]
  · rw [hσ3]
    simp [Store.findEN, Store.find]
  · rw [hσ3]
    simp [headElem, Store.find]
  · rw [hσ3]
    rw [show traverse ((m + 2, ⟨c, some 0, 1⟩) :: (0, ⟨x, chainHead xs' 1, 2⟩) ::
        mkChain xs' 1) (some (m + 2)) (m + 3) =
      (match Store.find ((m + 2, ⟨c, some 0, 1⟩) ::
          (0, ⟨x, chainHead xs' 1, 2⟩) :: mkChain xs' 1) (m + 2) with
       | none => []
       | some nd => nd.elem :: traverse ((m + 2, ⟨c, some 0, 1⟩) ::
           (0, ⟨x, chainHead xs' 1, 2⟩) :: mkChain xs' 1) nd.next (m + 2))
        from rfl]
    rw [show Store.find ((m + 2, ⟨c, some 0, 1⟩) ::
        (0, ⟨x, chainHead xs' 1, 2⟩) :: mkChain xs' 1) (m + 2) =
      some ⟨c, some 0, 1⟩ from by simp [Store.find]]
    show c :: traverse _ (some 0) (m + 2) = c :: x :: xs'
    refine congrArg (c :: ·) ?_
    have := traverse_chain α (x :: xs') 0 (m + 2)
      ((m + 2, ⟨c, some 0, 1⟩) :: (0, ⟨x, chainHead xs' 1, 2⟩) :: mkChain xs' 1)
      (by simp only [List.length_cons]; omega) ?_
    · rw [show chainHead (x :: xs') 0 = some 0 from by simp [chainHead]] at this
      exact this
    · intro i hi
      have hi' : i < m + 1 := by simpa using hi
      have := hag i hi'
      rw [hσ3, show σ0 = mkChain (x :: xs') 0 from rfl] at this
      rw [Nat.zero_add]
      exact this

end Third

/-- Claim C2: two persistent lists B and C built by prepending different
front elements `b`, `c` onto the same original chain both share the
original's entire chain (their fresh nodes' successor links are the same
original head address), and dropping B reclaims only the node B exclusively
owns: B's own node is gone afterwards, every original node survives with
its observable fields intact (the walk stopped at the first node still
shared), C's node survives, and C's `head()` and full traversal are
unchanged. -/
theorem persistent_sharing_drop (α : Type) (xs : Elems α) (b c : α) :
    let n := xs.length
    let σ0 := Third.mkChain xs 0
    let orig : Third.List α := ⟨Third.chainHead xs 0⟩
    let pB := Third.prepend σ0 orig b n
    let pC := Third.prepend pB.1 orig c (n + 1)
    let σ3 := Third.dropLoop pC.1 pB.2.head (n + 2)
    (Third.Store.findEN pC.1 n = some (b, orig.head) ∧
     Third.Store.findEN pC.1 (n + 1) = some (c, orig.head)) ∧
    Third.Store.find σ3 n = none ∧
    (∀ i, i < n → Third.Store.findEN σ3 i = Third.Store.findEN σ0 i) ∧
    Third.Store.findEN σ3 (n + 1) = some (c, orig.head) ∧
    Third.headElem σ3 pC.2 = some c ∧
    Third.traverse σ3 pC.2.head (n + 2) = c :: xs := by
  rcases xs with _ | ⟨x, xs'⟩
  · exact ⟨⟨rfl, rfl⟩, rfl, fun i hi => (Nat.not_lt_zero i hi).elim, rfl, rfl,
      rfl⟩
  · exact Third.share_drop_cons α x xs' b c

/-- Witness for C2: for the one-element original chain `[10]` with fronts
20 and 30, the original node at address 0 is observably unchanged after B
is dropped. -/
theorem persistent_sharing_drop_witness :
    Third.Store.findEN
        (Third.dropLoop
          (Third.prepend (Third.prepend (Third.mkChain [10] 0) ⟨some 0⟩ 20 1).1
            ⟨some 0⟩ 30 2).1
          (Third.prepend (Third.mkChain [10] 0) ⟨some 0⟩ 20 1).2.head 3) 0 =
      Third.Store.findEN (Third.mkChain [10] 0) 0 :=
  (persistent_sharing_drop Nat [10] 20 30).2.2.1 0 (by decide)
